import Mathlib

/-
Verification of the TEI endnote inlining transformation (src/inline_notes.py).

The script rewrites a TEI P5 document tree: endnotes stored in
back/div[@type="notes"] are looked up by xml:id, every ref element under a
text element whose target attribute is a local fragment pointer "#id" with id
in the table is replaced in place by a freshly built note element with
place="inline" carrying a deep copy of the endnote content, and finally the
notes divisions are removed from back, removing a back container that became
empty.

The document model is a rose tree of elements.  All elements of the processed
documents live in the single TEI namespace, so tags are modelled by their
local names.  Text nodes follow the lxml model: an element carries its
leading text (text before the first child) in the field txt, and the text
between the element and its next sibling in the field tail.  Python strings
that may be absent are modelled as Option String; the Python truthiness test
used by the script (None and the empty string are falsy) is the function
truthy below.  deepcopy of an lxml element copies the whole subtree
including the tail, which on pure values is the identity, so copies made
from the same endnote are independent values by construction.
-/

inductive Elem where
  | mk (tag : String) (attrs : List (String × String)) (txt : Option String)
       (children : List Elem) (tail : Option String)

def Elem.tag : Elem → String
  | .mk t _ _ _ _ => t

def Elem.attrs : Elem → List (String × String)
  | .mk _ a _ _ _ => a

def Elem.txt : Elem → Option String
  | .mk _ _ tx _ _ => tx

def Elem.children : Elem → List Elem
  | .mk _ _ _ cs _ => cs

def Elem.tail : Elem → Option String
  | .mk _ _ _ _ tl => tl

/-- Attribute lookup, as element.get(key) in lxml. -/
def Elem.attr (e : Elem) (k : String) : Option String :=
  (e.attrs.find? (fun p => p.1 == k)).map (fun p => p.2)

@[simp] theorem Elem.tag_mk (t a tx cs tl) : (Elem.mk t a tx cs tl).tag = t := rfl
@[simp] theorem Elem.attrs_mk (t a tx cs tl) : (Elem.mk t a tx cs tl).attrs = a := rfl
@[simp] theorem Elem.txt_mk (t a tx cs tl) : (Elem.mk t a tx cs tl).txt = tx := rfl
@[simp] theorem Elem.children_mk (t a tx cs tl) : (Elem.mk t a tx cs tl).children = cs := rfl
@[simp] theorem Elem.tail_mk (t a tx cs tl) : (Elem.mk t a tx cs tl).tail = tl := rfl

/-- Rebuild an element with a new tail (assignment to element.tail). -/
def withTail : Elem → Option String → Elem
  | .mk t a tx cs _, tl => .mk t a tx cs tl

/-- Python truthiness of an optional string: None and the empty string are
falsy. -/
def truthy : Option String → Bool
  | none => false
  | some s => !s.isEmpty

/-- The text an optional string denotes (absent text reads as empty). -/
def textOf : Option String → String
  | none => ""
  | some s => s

/-! ### NoteTable: the dictionary built by get_notes_from_back -/

abbrev NoteTable := List (String × Elem)

/-- Python dict assignment notes[k] = v: an existing key keeps its position
and gets the new value, a new key is appended. -/
def updateTable (t : NoteTable) (k : String) (v : Elem) : NoteTable :=
  if t.any (fun p => p.1 == k) then
    t.map (fun p => if p.1 == k then (k, v) else p)
  else
    t ++ [(k, v)]

/-- Python dict lookup notes[k] / k in notes. -/
def lookupTable (t : NoteTable) (k : String) : Option Elem :=
  (t.find? (fun p => p.1 == k)).map (fun p => p.2)

/-! ### Note Collector (get_notes_from_back, lines 28-54) -/

/-- A div element with type="notes", the shape selected by the XPath step
div[@type="notes"]. -/
def isNotesDiv (e : Elem) : Bool :=
  e.tag == "div" && e.attr "type" == some "notes"

/- The (xml:id, note) pairs contributed by an element and its descendants,
in document order: the XPath .//tei:note[@xml:id] relative to a notes
division selects every note descendant that carries an xml:id attribute
(present, possibly empty). -/
mutual
def noteEntries : Elem → List (String × Elem)
  | .mk t a tx cs tl =>
      (if t == "note" then
        match (Elem.mk t a tx cs tl).attr "xml:id" with
        | some v => [(v, Elem.mk t a tx cs tl)]
        | none => []
      else []) ++ noteEntriesL cs
def noteEntriesL : List Elem → List (String × Elem)
  | [] => []
  | c :: cs => noteEntries c ++ noteEntriesL cs
end

/-- The note entries of the div[@type="notes"] children of a back element. -/
def divNotes (cs : List Elem) : List (String × Elem) :=
  (cs.filter isNotesDiv).flatMap (fun d => noteEntriesL d.children)

/- All (xml:id, note) pairs found by iterating the XPath result
//tei:back/tei:div[@type="notes"] and, inside each division, the XPath
result .//tei:note[@xml:id], flattened in document order.  Each back element
contributes the notes of its notes-division children at its own position of
the preorder walk, which is the document order of the selected divisions for
documents in which no back element is nested inside another one. -/
mutual
def collectedPairs : Elem → List (String × Elem)
  | .mk t _ _ cs _ =>
      (if t == "back" then divNotes cs else []) ++ collectedPairsL cs
def collectedPairsL : List Elem → List (String × Elem)
  | [] => []
  | c :: cs => collectedPairs c ++ collectedPairsL cs
end

/-- get_notes_from_back: fold the collected pairs into the dictionary,
skipping a note whose xml:id is empty (the if note_id: check). -/
def get_notes_from_back (root : Elem) : NoteTable :=
  (collectedPairs root).foldl
    (fun t p => if p.1.isEmpty then t else updateTable t p.1 p.2) []

/-! ### Inliner (create_inline_note, lines 57-84) -/

/-- Assignment to the tail of the last element of a list
(inline_note[-1].tail = t); leaves the empty list unchanged. -/
def setLastTail : List Elem → Option String → List Elem
  | [], _ => []
  | [.mk t a tx cs _], tl2 => [.mk t a tx cs tl2]
  | c :: c2 :: cs, tl2 => c :: setLastTail (c2 :: cs) tl2

/-- create_inline_note: a fresh note element with place="inline"; the leading
text of the endnote is copied when truthy; every child is deep copied in
order (on pure values the copy is the value itself); finally, when the
endnote has children and its last child has a truthy tail, that tail is
assigned to the last child of the copy (a rewrite of the value the copy
already carries). -/
def create_inline_note (n : Elem) : Elem :=
  let tx := if truthy n.txt then n.txt else none
  let cs :=
    match n.children.getLast? with
    | some lastc =>
        if truthy lastc.tail then setLastTail n.children lastc.tail
        else n.children
    | none => n.children
  Elem.mk "note" [("place", "inline")] tx cs none

/-! ### Resolver and Inliner (inline_references, lines 87-132) -/

/-- starts-with(t, "#"): the first character of t is the fragment marker
(false for the empty string), as target.startswith("#") in the source. -/
def startsWithHash (t : String) : Bool :=
  match t.data with
  | [] => false
  | c :: _ => c == '#'

/-- A ref element selected by //tei:text//tei:ref[starts-with(@target, "#")]
whose fragment identifier is a key of the table: exactly the refs the loop
replaces (the loop guards if not target and if note_id not in notes). -/
def matchedRef (notes : NoteTable) (e : Elem) : Bool :=
  e.tag == "ref" &&
    (match e.attr "target" with
     | some t => startsWithHash t && (lookupTable notes (t.drop 1)).isSome
     | none => false)

/-- The element that replaces a matched ref: the inline note built from the
looked-up endnote, carrying the tail of the ref when that tail is truthy
(if ref.tail: inline_note.tail = ref.tail). -/
def replaceRef (notes : NoteTable) (r : Elem) : Elem :=
  match r.attr "target" with
  | some t =>
      match lookupTable notes (t.drop 1) with
      | some n =>
          withTail (create_inline_note n) (if truthy r.tail then r.tail else none)
      | none => r
  | none => r

/- The tree rewrite performed by the loop of inline_references: the XPath
//tei:text//tei:ref selects refs that have a text ancestor, so the flag
inText records whether an ancestor with tag text has been passed.  A matched
ref is replaced in place by parent.replace(ref, inline_note), which keeps
the positions of all siblings; the inserted copy is not itself scanned,
because the XPath node-set was computed before the loop started. -/
mutual
def rewriteE (notes : NoteTable) (inText : Bool) (e : Elem) : Elem :=
  match e with
  | .mk t a tx cs tl =>
      if inText && matchedRef notes (.mk t a tx cs tl) then
        replaceRef notes (.mk t a tx cs tl)
      else
        .mk t a tx (rewriteL notes (inText || t == "text") cs) tl
def rewriteL (notes : NoteTable) (b : Bool) (cs : List Elem) : List Elem :=
  match cs with
  | [] => []
  | c :: cs => rewriteE notes b c :: rewriteL notes b cs
end

/- The counter of inline_references: one increment per matched ref of the
precomputed node-set.  Every selected ref has a non-None parent (it is a
strict descendant of a text element) and a non-empty target (it starts with
the character #), so neither continue guard of the loop skips a matched
ref, and the loop increments once per matched ref it replaces. -/
mutual
def inlineCountE (notes : NoteTable) (inText : Bool) (e : Elem) : Nat :=
  match e with
  | .mk t a tx cs tl =>
      if inText && matchedRef notes (.mk t a tx cs tl) then 1
      else inlineCountL notes (inText || t == "text") cs
def inlineCountL (notes : NoteTable) (b : Bool) (cs : List Elem) : Nat :=
  match cs with
  | [] => 0
  | c :: cs => inlineCountE notes b c + inlineCountL notes b cs
end

/-- inline_references: the mutated tree together with the returned count. -/
def inline_references (root : Elem) (notes : NoteTable) : Elem × Nat :=
  (rewriteE notes false root, inlineCountE notes false root)

/-! ### Cleanup (remove_notes_div, lines 135-178) -/

/-- Whether an element has a div[@type="notes"] child, the shape selected by
the XPath //tei:back/tei:div[@type="notes"] below a given back. -/
def hasNotesDivChild (e : Elem) : Bool :=
  e.children.any isNotesDiv

/-- Whether an element has non-whitespace leading text
(back.text and back.text.strip()). -/
def hasNonWsText (e : Elem) : Bool :=
  match e.txt with
  | some s => s.data.any (fun ch => !ch.isWhitespace)
  | none => false

/-- The emptiness check of remove_notes_div, applied to a back element: no
child elements and no non-whitespace leading text. -/
def backEmptyAfter (e : Elem) : Bool :=
  e.children.isEmpty && !(hasNonWsText e)

/- The loop of remove_notes_div iterates over the node set
//tei:back/tei:div[@type="notes"], computed once, in document order.  After
removing each division it checks THAT division's parent back once (no child
elements, no non-whitespace leading text) and, when the check succeeds,
removes the back from its own parent; a back is never re-checked later.  A
back only ever loses children, so it is removed exactly when the check
following its LAST own notes division finds it empty.  At that moment the
back has lost all of its notes-division children and every back child that
removed itself earlier; a back child removes itself only when its own last
division is processed, which in document order lies before the checks of
the parent divisions that follow it, and after the checks of the parent
divisions that precede it.  Hence a back is removed if and only if it has
no non-whitespace leading text and its child list is non-empty, ends with a
notes division, and consists only of notes divisions and back children that
themselves vanish in this way (vanishE below).  In particular a back that
becomes empty only AFTER its last own division was removed stays in the
tree: on back[div-notes, back[div-notes]] the inner back removes itself
last, and the emptied outer back survives, exactly as the source behaves. -/
mutual
def vanishE : Elem → Bool
  | .mk t a tx cs tl =>
      !(hasNonWsText (.mk t a tx cs tl)) && vanishKids cs
def vanishKids : List Elem → Bool
  | [] => false
  | [c] => isNotesDiv c
  | c :: c2 :: cs =>
      (isNotesDiv c || (c.tag == "back" && vanishE c)) && vanishKids (c2 :: cs)
end

/- The net tree effect of the loop: every back (the element itself, when it
is a back) loses its notes-division children; every back child that
vanishes (vanishE) is removed from its parent; all other children are kept
at their positions and processed recursively. -/
mutual
def cleanupE : Elem → Elem
  | .mk t a tx cs tl => .mk t a tx (cleanupChildren (t == "back") cs) tl
def cleanupChildren : Bool → List Elem → List Elem
  | _, [] => []
  | isBack, c :: cs =>
      if isBack && isNotesDiv c then cleanupChildren isBack cs
      else if c.tag == "back" && vanishE c then cleanupChildren isBack cs
      else cleanupE c :: cleanupChildren isBack cs
end

/-- The contribution of one child to the cleaned child list of
cleanupChildren. -/
def cleanupOne (isBack : Bool) (c : Elem) : List Elem :=
  if isBack && isNotesDiv c then []
  else if c.tag == "back" && vanishE c then []
  else [cleanupE c]

/-- remove_notes_div on the whole tree.  The root element itself can be a
back selected by //tei:back: its divisions are removed (cleanupE strips the
divisions of every back, the root included), but the root is never removed,
matching the text_element is None guard of the source. -/
def remove_notes_div (root : Elem) : Elem := cleanupE root

/-! ### Per-document pipeline (process_file, lines 181-234, without I/O) -/

/-- The tree transformation of process_file: collect the endnotes; when the
dictionary is empty the file is written back unchanged (the early return
after if not notes), otherwise the references are inlined and the notes
divisions removed.  Parsing and serialisation are outside the tree model. -/
def process_file_tree (root : Elem) : Elem :=
  let notes := get_notes_from_back root
  if notes.isEmpty then root
  else remove_notes_div (rewriteE notes false root)

/-! ### Driver (main, lines 237-286)

The driver is modelled by its decision structure: the length of sys.argv,
the two input-folder checks, the list of matched .xml files and, for each
file, whether process_file returned True (its try/except turns any
per-document exception into the return value False, after printing the file
name and the exception).  The model returns the process exit code together
with the success and error counters of the summary; main falls off its end
without calling sys.exit when processing ran, which is exit status 0. -/

def main_model (argc : Nat) (inputExists inputIsDir : Bool)
    (xmlFiles : List String) (ok : String → Bool) : Nat × Nat × Nat :=
  if argc ≠ 3 then (1, 0, 0)
  else if !(inputExists && inputIsDir) then (1, 0, 0)
  else if xmlFiles.isEmpty then (1, 0, 0)
  else (0, (xmlFiles.filter ok).length,
        (xmlFiles.filter (fun f => !(ok f))).length)

/-! ### Observers used by the statements -/

/- Every element of the preorder list of strict descendants of text
elements: the node-set of //tei:text//tei:ref before filtering on the tag,
generalised to all elements. -/
mutual
def textDescE (inText : Bool) (e : Elem) : List Elem :=
  match e with
  | .mk t a tx cs tl =>
      let rest := textDescL (inText || t == "text") cs
      if inText then Elem.mk t a tx cs tl :: rest else rest
def textDescL (b : Bool) (cs : List Elem) : List Elem :=
  match cs with
  | [] => []
  | c :: cs => textDescE b c ++ textDescL b cs
end

/-- The specified number of body references whose target identifier is in
the table: the matched refs among the descendants of text elements. -/
def specMatchedCount (notes : NoteTable) (root : Elem) : Nat :=
  ((textDescE false root).filter (fun e => matchedRef notes e)).length

/- Whether the subtree contains any ref element. -/
mutual
def containsRefE : Elem → Bool
  | .mk t _ _ cs _ => t == "ref" || containsRefL cs
def containsRefL : List Elem → Bool
  | [] => false
  | c :: cs => containsRefE c || containsRefL cs
end

/- No ref element of the subtree contains another ref element. -/
mutual
def noNestedRefE : Elem → Bool
  | .mk t _ _ cs _ =>
      (if t == "ref" then !(containsRefL cs) else true) && noNestedRefL cs
def noNestedRefL : List Elem → Bool
  | [] => true
  | c :: cs => noNestedRefE c && noNestedRefL cs
end

/- Whether the subtree contains any back element. -/
mutual
def containsBackE : Elem → Bool
  | .mk t _ _ cs _ => t == "back" || containsBackL cs
def containsBackL : List Elem → Bool
  | [] => false
  | c :: cs => containsBackE c || containsBackL cs
end

/- No back element of the subtree contains another back element. -/
mutual
def noNestedBackE : Elem → Bool
  | .mk t _ _ cs _ =>
      (if t == "back" then !(containsBackL cs) else true) && noNestedBackL cs
def noNestedBackL : List Elem → Bool
  | [] => true
  | c :: cs => noNestedBackE c && noNestedBackL cs
end

/-- No note of the table carries a ref element inside its content. -/
def tableRefFree (notes : NoteTable) : Bool :=
  notes.all (fun p => !(containsRefL p.2.children))

/-- A ref element the inliner must not touch: its target is not a local
fragment pointer, or the local identifier is absent from the table. -/
def isUnmatchedRef (notes : NoteTable) (e : Elem) : Bool :=
  e.tag == "ref" && !(matchedRef notes e)

/- Number of such untouchable refs in the whole subtree. -/
mutual
def unmatchedCountE (notes : NoteTable) (e : Elem) : Nat :=
  match e with
  | .mk t a tx cs tl =>
      (if isUnmatchedRef notes (.mk t a tx cs tl) then 1 else 0) +
        unmatchedCountL notes cs
def unmatchedCountL (notes : NoteTable) (cs : List Elem) : Nat :=
  match cs with
  | [] => 0
  | c :: cs => unmatchedCountE notes c + unmatchedCountL notes cs
end

/- No back element of the subtree has a div[@type="notes"] child. -/
mutual
def noBackNotesDivE : Elem → Bool
  | .mk t a tx cs tl =>
      (if t == "back" then !(hasNotesDivChild (.mk t a tx cs tl)) else true) &&
        noBackNotesDivL cs
def noBackNotesDivL : List Elem → Bool
  | [] => true
  | c :: cs => noBackNotesDivE c && noBackNotesDivL cs
end

/- Some back element of the subtree has no element children and no
non-whitespace leading text. -/
mutual
def existsEmptyBackE : Elem → Bool
  | .mk t a tx cs tl =>
      (t == "back" && backEmptyAfter (.mk t a tx cs tl)) || existsEmptyBackL cs
def existsEmptyBackL : List Elem → Bool
  | [] => false
  | c :: cs => existsEmptyBackE c || existsEmptyBackL cs
end

/-! ### Concrete documents used as counterexamples and witnesses -/

/-- An endnote with mixed content: leading text, one emphasis child with its
own text and trailing text. -/
def noteN1 : Elem :=
  .mk "note" [("xml:id", "n1")] (some "Hello ")
    [.mk "emph" [] (some "world") [] (some "!")] none

/-- A body reference to the endnote, with trailing prose. -/
def refN1 : Elem := .mk "ref" [("target", "#n1")] none [] (some " after")

/-- A reference to an external target. -/
def extRef : Elem := .mk "ref" [("target", "http://example.com")] none [] none

/-- A well-formed document: one endnote, one matching body ref, one external
ref. -/
def w1doc : Elem :=
  .mk "TEI" [] none
    [.mk "text" [] none
      [.mk "body" [] none [refN1, extRef] none,
       .mk "back" [] none
         [.mk "div" [("type", "notes")] none [noteN1] none] none] none] none

/-- A document whose notes division holds only a note without xml:id: the
collector finds nothing and process_file takes its early-copy path. -/
def c3doc : Elem :=
  .mk "TEI" [] none
    [.mk "text" [] none
      [.mk "body" [] none [] none,
       .mk "back" [] none
         [.mk "div" [("type", "notes")] none
           [.mk "note" [] (some "orphan") [] none] none] none] none] none

/-- A document with an empty back container that holds no notes division. -/
def c4doc : Elem :=
  .mk "TEI" [] none
    [.mk "text" [] none
      [.mk "body" [] none [] none,
       .mk "back" [] none [] none] none] none

/-- An endnote whose content itself holds an external reference. -/
def noteWithRef : Elem :=
  .mk "note" [("xml:id", "n1")] (some "see ") [extRef] none

/-- A document in which the inlined endnote content carries an external
reference, so inlining duplicates that reference. -/
def c5doc : Elem :=
  .mk "TEI" [] none
    [.mk "text" [] none
      [.mk "body" [] none [refN1] none,
       .mk "back" [] none
         [.mk "div" [("type", "notes")] none [noteWithRef] none] none] none] none

/-- A back container that holds a notes division next to an unrelated
division. -/
def backWithExtra : Elem :=
  .mk "back" [] none
    [.mk "div" [("type", "notes")] none [noteN1] none,
     .mk "div" [("type", "appendix")] (some " ")
       [.mk "p" [] (some "kept") [] none] none] none

/-- A document with two notes sharing one identifier. -/
def dupDoc : Elem :=
  .mk "TEI" [] none
    [.mk "text" [] none
      [.mk "body" [] none [] none,
       .mk "back" [] none
         [.mk "div" [("type", "notes")] none
           [.mk "note" [("xml:id", "d")] (some "first") [] none,
            .mk "note" [("xml:id", "d")] (some "second") [] none] none]
         none] none] none

/-- A back holding only a notes division: it empties and removes itself. -/
def innerBack : Elem :=
  .mk "back" [] none
    [.mk "div" [("type", "notes")] none
      [.mk "note" [("xml:id", "i1")] (some "inner") [] none] none] none

/-- A back whose last child is a nested back: its own division is removed
first, the inner back removes itself only afterwards, and the emptied outer
back is never re-checked, so it survives. -/
def outerBack : Elem :=
  .mk "back" [] none
    [.mk "div" [("type", "notes")] none
      [.mk "note" [("xml:id", "o1")] (some "outer") [] none] none,
     innerBack] none

/-- A ref whose target is the bare fragment "#". -/
def hashRef : Elem := .mk "ref" [("target", "#")] none [] none

/-! ### A parametric document family: one endnote referenced N times -/

def mkRef7 : Elem := .mk "ref" [("target", "#n1")] none [] none

def mkNote7 (tx : Option String) (kids : List Elem) : Elem :=
  .mk "note" [("xml:id", "n1")] tx kids none

def mkDoc7 (N : Nat) (tx : Option String) (kids : List Elem) : Elem :=
  .mk "TEI" [] none
    [.mk "text" [] none
      [.mk "body" [] none (List.replicate N mkRef7) none,
       .mk "back" [] none
         [.mk "div" [("type", "notes")] none [mkNote7 tx kids] none] none] none] none

/-! ### List-level characterisations of the mutual recursions -/

theorem noteEntriesL_eq (cs : List Elem) : noteEntriesL cs = cs.flatMap noteEntries := by
  induction cs with
  | nil => simp [noteEntriesL]
  | cons c cs ih => simp [noteEntriesL, ih]

theorem collectedPairsL_eq (cs : List Elem) :
    collectedPairsL cs = cs.flatMap collectedPairs := by
  induction cs with
  | nil => simp [collectedPairsL]
  | cons c cs ih => simp [collectedPairsL, ih]

theorem rewriteL_eq (notes : NoteTable) (b : Bool) (cs : List Elem) :
    rewriteL notes b cs = cs.map (rewriteE notes b) := by
  induction cs with
  | nil => simp [rewriteL]
  | cons c cs ih => simp [rewriteL, ih]

theorem inlineCountL_eq (notes : NoteTable) (b : Bool) (cs : List Elem) :
    inlineCountL notes b cs = (cs.map (inlineCountE notes b)).sum := by
  induction cs with
  | nil => simp [inlineCountL]
  | cons c cs ih => simp [inlineCountL, ih]

theorem textDescL_eq (b : Bool) (cs : List Elem) :
    textDescL b cs = cs.flatMap (textDescE b) := by
  induction cs with
  | nil => simp [textDescL]
  | cons c cs ih => simp [textDescL, ih]

theorem containsRefL_eq (cs : List Elem) : containsRefL cs = cs.any containsRefE := by
  induction cs with
  | nil => simp [containsRefL]
  | cons c cs ih => simp [containsRefL, ih]

theorem noNestedRefL_eq (cs : List Elem) :
    noNestedRefL cs = cs.all noNestedRefE := by
  induction cs with
  | nil => simp [noNestedRefL]
  | cons c cs ih => simp [noNestedRefL, ih]

theorem unmatchedCountL_eq (notes : NoteTable) (cs : List Elem) :
    unmatchedCountL notes cs = (cs.map (unmatchedCountE notes)).sum := by
  induction cs with
  | nil => simp [unmatchedCountL]
  | cons c cs ih => simp [unmatchedCountL, ih]

theorem noBackNotesDivL_eq (cs : List Elem) :
    noBackNotesDivL cs = cs.all noBackNotesDivE := by
  induction cs with
  | nil => simp [noBackNotesDivL]
  | cons c cs ih => simp [noBackNotesDivL, ih]

theorem existsEmptyBackL_eq (cs : List Elem) :
    existsEmptyBackL cs = cs.any existsEmptyBackE := by
  induction cs with
  | nil => simp [existsEmptyBackL]
  | cons c cs ih => simp [existsEmptyBackL, ih]

theorem cleanupChildren_eq (isBack : Bool) (cs : List Elem) :
    cleanupChildren isBack cs = cs.flatMap (cleanupOne isBack) := by
  induction cs with
  | nil => simp [cleanupChildren]
  | cons c cs ih =>
      show cleanupChildren isBack (c :: cs)
        = cleanupOne isBack c ++ cs.flatMap (cleanupOne isBack)
      rw [← ih]
      simp only [cleanupChildren, cleanupOne]
      split
      · simp
      · split <;> simp

/-! ### Unfolding and field lemmas -/

theorem withTail_fields (t : String) (a : List (String × String)) (tx : Option String)
    (cs : List Elem) (tl tl2 : Option String) :
    withTail (.mk t a tx cs tl) tl2 = .mk t a tx cs tl2 := rfl

theorem setLastTail_self :
    ∀ (cs : List Elem) (l : Elem), cs.getLast? = some l → setLastTail cs l.tail = cs
  | [], _, h => by simp at h
  | [c], l, h => by
      have hc : c = l := by simpa using h
      subst hc
      cases c with
      | mk t a tx cs tl => simp [setLastTail]
  | c :: c2 :: cs, l, h => by
      have h2 : (c2 :: cs).getLast? = some l := by
        simpa [List.getLast?_cons_cons] using h
      simp [setLastTail, setLastTail_self (c2 :: cs) l h2]

theorem create_inline_note_children (n : Elem) :
    (create_inline_note n).children = n.children := by
  cases n with
  | mk t a tx cs tl =>
      unfold create_inline_note
      cases h : cs.getLast? with
      | none => simp [h]
      | some lastc =>
          simp only [Elem.children_mk, h]
          by_cases ht : truthy lastc.tail
          · simp [ht, setLastTail_self cs lastc h]
          · simp [ht]

theorem create_inline_note_tag (n : Elem) : (create_inline_note n).tag = "note" := by
  unfold create_inline_note; simp [Elem.tag]

theorem create_inline_note_attrs (n : Elem) :
    (create_inline_note n).attrs = [("place", "inline")] := by
  unfold create_inline_note; simp [Elem.attrs]

theorem create_inline_note_txt (n : Elem) :
    (create_inline_note n).txt = if truthy n.txt then n.txt else none := by
  unfold create_inline_note; simp [Elem.txt]

theorem create_inline_note_tail (n : Elem) : (create_inline_note n).tail = none := by
  unfold create_inline_note; simp [Elem.tail]

theorem rewriteE_unfold (notes : NoteTable) (b : Bool) (e : Elem) :
    rewriteE notes b e =
      if b && matchedRef notes e then replaceRef notes e
      else .mk e.tag e.attrs e.txt
        (rewriteL notes (b || e.tag == "text") e.children) e.tail := by
  cases e with
  | mk t a tx cs tl => simp [rewriteE, Elem.tag, Elem.attrs, Elem.txt, Elem.children, Elem.tail]

theorem inlineCountE_unfold (notes : NoteTable) (b : Bool) (e : Elem) :
    inlineCountE notes b e =
      if b && matchedRef notes e then 1
      else inlineCountL notes (b || e.tag == "text") e.children := by
  cases e with
  | mk t a tx cs tl => simp [inlineCountE, Elem.tag, Elem.children]

theorem textDescE_unfold (b : Bool) (e : Elem) :
    textDescE b e =
      if b then e :: textDescL (b || e.tag == "text") e.children
      else textDescL (b || e.tag == "text") e.children := by
  cases e with
  | mk t a tx cs tl => simp [textDescE, Elem.tag, Elem.children]

theorem unmatchedCountE_unfold (notes : NoteTable) (e : Elem) :
    unmatchedCountE notes e =
      (if isUnmatchedRef notes e then 1 else 0) + unmatchedCountL notes e.children := by
  cases e with
  | mk t a tx cs tl => simp [unmatchedCountE, Elem.children]

theorem containsRefE_unfold (e : Elem) :
    containsRefE e = (e.tag == "ref" || containsRefL e.children) := by
  cases e with
  | mk t a tx cs tl => simp [containsRefE, Elem.tag, Elem.children]

theorem noNestedRefE_unfold (e : Elem) :
    noNestedRefE e =
      ((if e.tag == "ref" then !(containsRefL e.children) else true) &&
        noNestedRefL e.children) := by
  cases e with
  | mk t a tx cs tl => simp [noNestedRefE, Elem.tag, Elem.children]

/-- A matched ref carries a target attribute whose fragment resolves in the
table, and its replacement is the inline note built from the resolved
endnote, with the tail of the ref when truthy. -/
theorem matchedRef_elim (notes : NoteTable) (r : Elem) (h : matchedRef notes r = true) :
    r.tag = "ref" ∧ ∃ t n, r.attr "target" = some t ∧ startsWithHash t = true ∧
      lookupTable notes (t.drop 1) = some n ∧
      replaceRef notes r =
        withTail (create_inline_note n) (if truthy r.tail then r.tail else none) := by
  unfold matchedRef at h
  obtain ⟨h1, h2⟩ := Bool.and_eq_true_iff.mp h
  refine ⟨by simpa using h1, ?_⟩
  cases hg : r.attr "target" with
  | none => rw [hg] at h2; simp at h2
  | some t =>
      rw [hg] at h2
      simp only at h2
      obtain ⟨h3, h4⟩ := Bool.and_eq_true_iff.mp h2
      cases hl : lookupTable notes (t.drop 1) with
      | none => rw [hl] at h4; simp at h4
      | some n =>
          refine ⟨t, n, rfl, h3, hl, ?_⟩
          unfold replaceRef
          simp only [hg, hl]

theorem withTail_tag (e : Elem) (tl : Option String) : (withTail e tl).tag = e.tag := by
  cases e; rfl

theorem withTail_attrs (e : Elem) (tl : Option String) :
    (withTail e tl).attrs = e.attrs := by
  cases e; rfl

theorem withTail_txt (e : Elem) (tl : Option String) : (withTail e tl).txt = e.txt := by
  cases e; rfl

theorem withTail_children (e : Elem) (tl : Option String) :
    (withTail e tl).children = e.children := by
  cases e; rfl

theorem withTail_tail (e : Elem) (tl : Option String) : (withTail e tl).tail = tl := by
  cases e; rfl

/-- matchedRef inspects only the tag and the attributes. -/
theorem matchedRef_congr (notes : NoteTable) (e f : Elem)
    (h1 : e.tag = f.tag) (h2 : e.attrs = f.attrs) :
    matchedRef notes e = matchedRef notes f := by
  unfold matchedRef Elem.attr
  rw [h1, h2]

theorem cleanupE_unfold (t a tx cs tl) :
    cleanupE (.mk t a tx cs tl) = .mk t a tx (cleanupChildren (t == "back") cs) tl := by
  simp [cleanupE]

/-! ### Subtrees without refs are untouched by the inliner -/

theorem containsRefE_mk (t a tx cs tl) :
    containsRefE (.mk t a tx cs tl) = ((t == "ref") || containsRefL cs) := by
  simp [containsRefE]

theorem matchedRef_false_of_tag (notes : NoteTable) (e : Elem)
    (h : (e.tag == "ref") = false) : matchedRef notes e = false := by
  unfold matchedRef
  rw [h]
  simp

mutual
theorem rewriteE_id_of_no_ref (notes : NoteTable) :
    ∀ (b : Bool) (e : Elem), containsRefE e = false → rewriteE notes b e = e
  | b, .mk t a tx cs tl, h => by
      rw [containsRefE_mk, Bool.or_eq_false_iff] at h
      have hm : matchedRef notes (.mk t a tx cs tl) = false :=
        matchedRef_false_of_tag notes _ (by simpa using h.1)
      simp [rewriteE, hm, rewriteL_id_of_no_ref notes (b || t == "text") cs h.2]
theorem rewriteL_id_of_no_ref (notes : NoteTable) :
    ∀ (b : Bool) (cs : List Elem), containsRefL cs = false → rewriteL notes b cs = cs
  | _, [], _ => rfl
  | b, c :: cs, h => by
      have h2 : containsRefE c = false ∧ containsRefL cs = false := by
        have := h
        simp only [containsRefL, Bool.or_eq_false_iff] at this
        exact this
      simp [rewriteL, rewriteE_id_of_no_ref notes b c h2.1,
        rewriteL_id_of_no_ref notes b cs h2.2]
end

mutual
theorem inlineCountE_zero_of_no_ref (notes : NoteTable) :
    ∀ (b : Bool) (e : Elem), containsRefE e = false → inlineCountE notes b e = 0
  | b, .mk t a tx cs tl, h => by
      rw [containsRefE_mk, Bool.or_eq_false_iff] at h
      have hm : matchedRef notes (.mk t a tx cs tl) = false :=
        matchedRef_false_of_tag notes _ (by simpa using h.1)
      simp [inlineCountE, hm, inlineCountL_zero_of_no_ref notes (b || t == "text") cs h.2]
theorem inlineCountL_zero_of_no_ref (notes : NoteTable) :
    ∀ (b : Bool) (cs : List Elem), containsRefL cs = false → inlineCountL notes b cs = 0
  | _, [], _ => rfl
  | b, c :: cs, h => by
      have h2 : containsRefE c = false ∧ containsRefL cs = false := by
        simpa only [containsRefL, Bool.or_eq_false_iff] using h
      simp [inlineCountL, inlineCountE_zero_of_no_ref notes b c h2.1,
        inlineCountL_zero_of_no_ref notes b cs h2.2]
end

mutual
theorem unmatchedCountE_zero_of_no_ref (notes : NoteTable) :
    ∀ (e : Elem), containsRefE e = false → unmatchedCountE notes e = 0
  | .mk t a tx cs tl, h => by
      rw [containsRefE_mk, Bool.or_eq_false_iff] at h
      have hm : isUnmatchedRef notes (.mk t a tx cs tl) = false := by
        unfold isUnmatchedRef
        simp [show (t == "ref") = false by simpa using h.1]
      simp [unmatchedCountE, hm, unmatchedCountL_zero_of_no_ref notes cs h.2]
theorem unmatchedCountL_zero_of_no_ref (notes : NoteTable) :
    ∀ (cs : List Elem), containsRefL cs = false → unmatchedCountL notes cs = 0
  | [], _ => rfl
  | c :: cs, h => by
      have h2 : containsRefE c = false ∧ containsRefL cs = false := by
        simpa only [containsRefL, Bool.or_eq_false_iff] using h
      simp [unmatchedCountL, unmatchedCountE_zero_of_no_ref notes c h2.1,
        unmatchedCountL_zero_of_no_ref notes cs h2.2]
end

mutual
theorem filterMatched_textDescE_nil (notes : NoteTable) :
    ∀ (b : Bool) (e : Elem), containsRefE e = false →
      (textDescE b e).filter (fun x => matchedRef notes x) = []
  | b, .mk t a tx cs tl, h => by
      rw [containsRefE_mk, Bool.or_eq_false_iff] at h
      have hm : matchedRef notes (.mk t a tx cs tl) = false :=
        matchedRef_false_of_tag notes _ (by simpa using h.1)
      have hrest := filterMatched_textDescL_nil notes (b || t == "text") cs h.2
      simp only [textDescE]
      cases b with
      | false => simpa using hrest
      | true => simp [List.filter, hm]; simpa using hrest
theorem filterMatched_textDescL_nil (notes : NoteTable) :
    ∀ (b : Bool) (cs : List Elem), containsRefL cs = false →
      (textDescL b cs).filter (fun x => matchedRef notes x) = []
  | _, [], _ => rfl
  | b, c :: cs, h => by
      have h2 : containsRefE c = false ∧ containsRefL cs = false := by
        simpa only [containsRefL, Bool.or_eq_false_iff] using h
      simp only [textDescL, List.filter_append,
        filterMatched_textDescE_nil notes b c h2.1,
        filterMatched_textDescL_nil notes b cs h2.2, List.append_nil]
end

mutual
theorem collectedPairs_nil_of_no_back :
    ∀ (e : Elem), containsBackE e = false → collectedPairs e = []
  | .mk t a tx cs tl, h => by
      have h2 : (t == "back") = false ∧ containsBackL cs = false := by
        simpa only [containsBackE, Bool.or_eq_false_iff] using h
      simp [collectedPairs, h2.1, collectedPairsL_nil_of_no_back cs h2.2]
theorem collectedPairsL_nil_of_no_back :
    ∀ (cs : List Elem), containsBackL cs = false → collectedPairsL cs = []
  | [], _ => rfl
  | c :: cs, h => by
      have h2 : containsBackE c = false ∧ containsBackL cs = false := by
        simpa only [containsBackL, Bool.or_eq_false_iff] using h
      simp [collectedPairsL, collectedPairs_nil_of_no_back c h2.1,
        collectedPairsL_nil_of_no_back cs h2.2]
end


/-! ### Cleanup leaves no notes division inside a back container -/

theorem noBackNotesDivL_all (cs : List Elem) :
    noBackNotesDivL cs = true ↔ ∀ x ∈ cs, noBackNotesDivE x = true := by
  rw [noBackNotesDivL_eq]
  exact List.all_eq_true

theorem noBackNotesDivE_mk (t a tx cs tl) :
    noBackNotesDivE (.mk t a tx cs tl) =
      ((if t == "back" then !(hasNotesDivChild (.mk t a tx cs tl)) else true) &&
        noBackNotesDivL cs) := by
  simp only [noBackNotesDivE, hasNotesDivChild, Elem.children_mk]

theorem cleanupE_tag (e : Elem) : (cleanupE e).tag = e.tag := by
  cases e with
  | mk t a tx cs tl => rw [cleanupE_unfold]; rfl

theorem cleanupE_attrs (e : Elem) : (cleanupE e).attrs = e.attrs := by
  cases e with
  | mk t a tx cs tl => rw [cleanupE_unfold]; rfl

/-- isNotesDiv inspects only the tag and the attributes. -/
theorem isNotesDiv_congr (e f : Elem) (h1 : e.tag = f.tag) (h2 : e.attrs = f.attrs) :
    isNotesDiv e = isNotesDiv f := by
  unfold isNotesDiv Elem.attr
  rw [h1, h2]

/-- The cleaned child list of a back element holds no notes division: the
divisions themselves are dropped and cleanup changes no tags or attributes
of the kept children. -/
theorem cleanupChildren_no_div (cs : List Elem) :
    ∀ x ∈ cleanupChildren true cs, isNotesDiv x = false := by
  induction cs with
  | nil => intro x hx; simp [cleanupChildren] at hx
  | cons c cs ih =>
      intro x hx
      simp only [cleanupChildren] at hx
      by_cases h1 : (true && isNotesDiv c) = true
      · rw [if_pos h1] at hx
        exact ih x hx
      · rw [if_neg h1] at hx
        have hdiv : isNotesDiv c = false := by
          cases hv : isNotesDiv c with
          | false => rfl
          | true => exact absurd (by simp [hv]) h1
        by_cases h2 : (c.tag == "back" && vanishE c) = true
        · rw [if_pos h2] at hx
          exact ih x hx
        · rw [if_neg h2] at hx
          rcases List.mem_cons.mp hx with h3 | h3
          · subst h3
            rw [isNotesDiv_congr (cleanupE c) c (cleanupE_tag c) (cleanupE_attrs c)]
            exact hdiv
          · exact ih x h3

mutual
theorem cleanupE_clean : ∀ (e : Elem), noBackNotesDivE (cleanupE e) = true
  | .mk t a tx cs tl => by
      have hcs := cleanupChildren_clean (t == "back") cs
      rw [cleanupE_unfold, noBackNotesDivE_mk]
      refine Bool.and_eq_true_iff.mpr ⟨?_, hcs⟩
      by_cases ht : (t == "back") = true
      · rw [if_pos ht, ht]
        have hany : (cleanupChildren true cs).any isNotesDiv = false :=
          List.any_eq_false.mpr
            (fun x hx => by simp [cleanupChildren_no_div cs x hx])
        simp only [hasNotesDivChild, Elem.children_mk, hany]
        rfl
      · rw [if_neg ht]
theorem cleanupChildren_clean : ∀ (isBack : Bool) (cs : List Elem),
    noBackNotesDivL (cleanupChildren isBack cs) = true
  | _, [] => rfl
  | isBack, c :: cs => by
      have hc := cleanupE_clean c
      have hcs := cleanupChildren_clean isBack cs
      simp only [cleanupChildren]
      split
      · exact hcs
      · split
        · exact hcs
        · simp only [noBackNotesDivL]
          rw [hc, hcs]
          rfl
end

/-- After remove_notes_div, no back element of the tree has a notes-division
child any more. -/
theorem remove_notes_div_clean (root : Elem) :
    noBackNotesDivE (remove_notes_div root) = true :=
  cleanupE_clean root

/-- The incremental emptiness checks of the loop, summed up: a back removes
itself exactly when it has no non-whitespace leading text and its child
list is non-empty, ends with a notes division, and consists only of notes
divisions and vanishing back children. -/
theorem vanishKids_iff : ∀ (cs : List Elem),
    vanishKids cs = true ↔
      (cs ≠ [] ∧ (∀ l, cs.getLast? = some l → isNotesDiv l = true) ∧
        ∀ c ∈ cs, isNotesDiv c = true ∨ (c.tag = "back" ∧ vanishE c = true))
  | [] => by simp [vanishKids]
  | [c] => by
      simp only [vanishKids]
      constructor
      · intro h
        refine ⟨by simp, ?_, ?_⟩
        · intro l hl
          have hcl : c = l := by simpa using hl
          rw [← hcl]
          exact h
        · intro x hx
          have hxc : x = c := by simpa using hx
          subst hxc
          left
          exact h
      · rintro ⟨-, h2, -⟩
        exact h2 c (by simp)
  | c :: c2 :: cs => by
      have ih := vanishKids_iff (c2 :: cs)
      simp only [vanishKids]
      rw [Bool.and_eq_true_iff, ih]
      constructor
      · rintro ⟨h1, -, hlast, hall⟩
        refine ⟨by simp, ?_, ?_⟩
        · intro l hl
          exact hlast l (by rw [← List.getLast?_cons_cons]; exact hl)
        · intro x hx
          rcases List.mem_cons.mp hx with h | h
          · subst h
            rcases Bool.or_eq_true_iff.mp h1 with h | h
            · left; exact h
            · right
              obtain ⟨ha, hb⟩ := Bool.and_eq_true_iff.mp h
              exact ⟨by simpa using ha, hb⟩
          · exact hall x h
      · rintro ⟨-, hlast, hall⟩
        refine ⟨?_, by simp, fun l hl =>
            hlast l (by rw [List.getLast?_cons_cons]; exact hl),
          fun x hx => hall x (List.mem_cons_of_mem c hx)⟩
        rcases hall c (by simp) with h | h
        · simp [h]
        · simp [h.1, h.2]

theorem cleanupChildren_append (isBack : Bool) (xs ys : List Elem) :
    cleanupChildren isBack (xs ++ ys)
      = cleanupChildren isBack xs ++ cleanupChildren isBack ys := by
  rw [cleanupChildren_eq, cleanupChildren_eq, cleanupChildren_eq,
    List.flatMap_append]

/-! ### Dictionary lemmas -/

theorem lookup_cons (p : String × Elem) (t : NoteTable) (k2 : String) :
    lookupTable (p :: t) k2 = if p.1 = k2 then some p.2 else lookupTable t k2 := by
  by_cases h : p.1 = k2
  · unfold lookupTable
    rw [List.find?_cons_of_pos _ (by simpa using h)]
    simp [h]
  · unfold lookupTable
    rw [List.find?_cons_of_neg _ (by simpa using h)]
    simp [h]

theorem lookup_map_keep (t : NoteTable) (k : String) (v : Elem) (k2 : String)
    (h : k2 ≠ k) :
    lookupTable (t.map (fun p => if p.1 == k then (k, v) else p)) k2
      = lookupTable t k2 := by
  induction t with
  | nil => rfl
  | cons p t ih =>
      by_cases hp : p.1 = k
      · rw [List.map_cons,
          show (if (p.1 == k) = true then (k, v) else p) = (k, v) from by simp [hp],
          lookup_cons, lookup_cons]
        have h1 : ¬(k : String) = k2 := fun hh => h hh.symm
        have h2 : ¬p.1 = k2 := by rw [hp]; exact h1
        simp [h1, h2]
        simpa using ih
      · rw [List.map_cons,
          show (if (p.1 == k) = true then (k, v) else p) = p from by simp [hp],
          lookup_cons, lookup_cons]
        by_cases hq : p.1 = k2
        · simp [hq]
        · simp [hq]
          simpa using ih

theorem lookup_update (t : NoteTable) (k : String) (v : Elem) (k2 : String) :
    lookupTable (updateTable t k v) k2 =
      if k2 = k then some v else lookupTable t k2 := by
  induction t with
  | nil =>
      simp only [updateTable, List.any_nil, Bool.false_eq_true, if_false,
        List.nil_append]
      rw [lookup_cons]
      by_cases h : k2 = k
      · subst h; simp
      · simp [h, show ¬(k : String) = k2 from fun hh => h hh.symm]
  | cons p t ih =>
      by_cases hp : p.1 = k
      · have hany : ((p :: t).any fun q => q.1 == k) = true := by simp [hp]
        unfold updateTable
        rw [if_pos hany, List.map_cons,
          show (if (p.1 == k) = true then (k, v) else p) = (k, v) from by simp [hp],
          lookup_cons, lookup_cons]
        by_cases h : k2 = k
        · subst h; simp
        · have h1 : ¬(k : String) = k2 := fun hh => h hh.symm
          have h2 : ¬p.1 = k2 := by rw [hp]; exact h1
          simp only [if_neg h1, if_neg h, if_neg h2]
          exact lookup_map_keep t k v k2 h
      · by_cases hc : (t.any fun q => q.1 == k) = true
        · have hany : ((p :: t).any fun q => q.1 == k) = true := by
            simp [List.any_cons, hc]
          unfold updateTable
          rw [if_pos hany, List.map_cons,
            show (if (p.1 == k) = true then (k, v) else p) = p from by simp [hp],
            lookup_cons, lookup_cons]
          have ih2 := ih
          unfold updateTable at ih2
          rw [if_pos hc] at ih2
          by_cases hq : p.1 = k2
          · have hne : ¬k2 = k := fun hh => hp (hq.trans hh)
            simp [hq, hne]
          · simp [hq]
            simpa using ih2
        · have hcf : (t.any fun q => q.1 == k) = false := by
            cases hb : (t.any fun q => q.1 == k) with
            | false => rfl
            | true => exact absurd hb hc
          have hany : ¬((p :: t).any fun q => q.1 == k) = true := by
            simp [List.any_cons, hcf, hp]
          unfold updateTable
          rw [if_neg hany]
          simp only [List.cons_append]
          rw [lookup_cons, lookup_cons]
          have ih2 := ih
          unfold updateTable at ih2
          rw [if_neg hc] at ih2
          by_cases hq : p.1 = k2
          · have hne : ¬k2 = k := fun hh => hp (hq.trans hh)
            simp [hq, hne]
          · simp [hq, ih2]

theorem mem_update (t : NoteTable) (k : String) (v : Elem) (p : String × Elem)
    (hp : p ∈ updateTable t k v) : p = (k, v) ∨ p ∈ t := by
  unfold updateTable at hp
  split at hp
  · obtain ⟨q, hq, hgq⟩ := List.mem_map.mp hp
    split at hgq
    · left; exact hgq.symm
    · right; rw [← hgq]; exact hq
  · rcases List.mem_append.mp hp with h | h
    · right; exact h
    · left; simpa using h

/-- The fold of get_notes_from_back only ever adds pairs with a non-empty
key. -/
theorem fold_keys_nonempty :
    ∀ (L : List (String × Elem)) (t0 : NoteTable),
      (∀ p ∈ t0, ¬p.1.isEmpty = true) →
      ∀ p ∈ L.foldl (fun t q => if q.1.isEmpty then t else updateTable t q.1 q.2) t0,
        ¬p.1.isEmpty = true
  | [], t0, h0, p, hp => h0 p hp
  | q :: L, t0, h0, p, hp => by
      have hstep : ∀ r ∈ (if q.1.isEmpty then t0 else updateTable t0 q.1 q.2),
          ¬r.1.isEmpty = true := by
        intro r hr
        split at hr
        · exact h0 r hr
        next hq =>
          rcases mem_update t0 q.1 q.2 r hr with h | h
          · rw [h]; simpa using hq
          · exact h0 r h
      exact fold_keys_nonempty L _ hstep p (by simpa [List.foldl_cons] using hp)

/-- Folding the dictionary assignments: a key that occurs in the pair list
resolves to the value of its last occurrence; a key that does not occur
resolves as in the start table. -/
theorem fold_lookup (k : String) (hk : ¬k.isEmpty = true) :
    ∀ (L : List (String × Elem)) (t0 : NoteTable),
      lookupTable
        (L.foldl (fun t q => if q.1.isEmpty then t else updateTable t q.1 q.2) t0) k =
      match (L.filter (fun p => p.1 == k)).getLast? with
      | some q => some q.2
      | none => lookupTable t0 k
  | [], t0 => by simp [List.filter_nil]
  | q :: L, t0 => by
      rw [List.foldl_cons, fold_lookup k hk L _]
      by_cases hqk : q.1 = k
      · have hne : ¬q.1.isEmpty = true := by rw [hqk]; exact hk
        have hstep : (if q.1.isEmpty then t0 else updateTable t0 q.1 q.2)
            = updateTable t0 q.1 q.2 := by
          simp [hne]
        rw [hstep]
        have hfc : (q :: L).filter (fun p => p.1 == k)
            = q :: L.filter (fun p => p.1 == k) := by
          rw [List.filter_cons, if_pos (by simpa using hqk)]
        rw [hfc, List.getLast?_cons]
        cases hfl : (L.filter (fun p => p.1 == k)).getLast? with
        | some r => simp [hfl]
        | none =>
            simp only [hfl, Option.getD_none]
            rw [lookup_update]
            simp [hqk.symm]
      · have hfc : (q :: L).filter (fun p => p.1 == k)
            = L.filter (fun p => p.1 == k) := by
          rw [List.filter_cons, if_neg (by simpa using hqk)]
        rw [hfc]
        cases hfl : (L.filter (fun p => p.1 == k)).getLast? with
        | some r => simp [hfl]
        | none =>
            simp only [hfl]
            have hstep : lookupTable
                (if q.1.isEmpty then t0 else updateTable t0 q.1 q.2) k
                = lookupTable t0 k := by
              split
              · rfl
              · rw [lookup_update, if_neg (fun hh => hqk hh.symm)]
            rw [hstep]

/-! ### The count returned by inline_references -/

theorem noNestedRefE_parts (t a tx cs tl) (h : noNestedRefE (.mk t a tx cs tl) = true) :
    ((t == "ref") = true → containsRefL cs = false) ∧ noNestedRefL cs = true := by
  have h2 : ((if t == "ref" then !(containsRefL cs) else true) = true)
      ∧ noNestedRefL cs = true := by
    simpa only [noNestedRefE, Bool.and_eq_true_iff] using h
  refine ⟨fun ht => ?_, h2.2⟩
  have := h2.1
  rw [if_pos ht] at this
  simpa using this

theorem isUnmatchedRef_congr (notes : NoteTable) (e f : Elem)
    (h1 : e.tag = f.tag) (h2 : e.attrs = f.attrs) :
    isUnmatchedRef notes e = isUnmatchedRef notes f := by
  unfold isUnmatchedRef
  rw [h1, matchedRef_congr notes e f h1 h2]

theorem lookup_mem (notes : NoteTable) (k : String) (n : Elem)
    (hl : lookupTable notes k = some n) : ∃ p, p ∈ notes ∧ p.2 = n := by
  unfold lookupTable at hl
  cases hf : notes.find? (fun p => p.1 == k) with
  | none => rw [hf] at hl; simp at hl
  | some p =>
      rw [hf] at hl
      have hpn : p.2 = n := by simpa using hl
      exact ⟨p, List.mem_of_find?_eq_some hf, hpn⟩

theorem tableRefFree_lookup (notes : NoteTable) (htf : tableRefFree notes = true)
    (k : String) (n : Elem) (hl : lookupTable notes k = some n) :
    containsRefL n.children = false := by
  obtain ⟨p, hp, hpn⟩ := lookup_mem notes k n hl
  have := List.all_eq_true.mp htf p hp
  rw [hpn] at this
  simpa using this

/-- The fields of the element that replaces a matched ref. -/
theorem replaceRef_fields (notes : NoteTable) (r : Elem)
    (h : matchedRef notes r = true) :
    ∃ n k, lookupTable notes k = some n ∧
      (replaceRef notes r).tag = "note" ∧
      (replaceRef notes r).attrs = [("place", "inline")] ∧
      (replaceRef notes r).children = n.children ∧
      (replaceRef notes r).txt = (if truthy n.txt then n.txt else none) ∧
      (replaceRef notes r).tail = (if truthy r.tail then r.tail else none) := by
  obtain ⟨-, t, n, -, -, hl, hrepl⟩ := matchedRef_elim notes r h
  refine ⟨n, t.drop 1, hl, ?_, ?_, ?_, ?_, ?_⟩ <;> rw [hrepl]
  · rw [withTail_tag, create_inline_note_tag]
  · rw [withTail_attrs, create_inline_note_attrs]
  · rw [withTail_children, create_inline_note_children]
  · rw [withTail_txt, create_inline_note_txt]
  · rw [withTail_tail]

mutual
theorem c1_countE (notes : NoteTable) :
    ∀ (b : Bool) (e : Elem), noNestedRefE e = true →
      inlineCountE notes b e
        = ((textDescE b e).filter (fun x => matchedRef notes x)).length
  | b, .mk t a tx cs tl, h => by
      obtain ⟨href, hL⟩ := noNestedRefE_parts t a tx cs tl h
      by_cases hm : (b && matchedRef notes (.mk t a tx cs tl)) = true
      · obtain ⟨hb, hmm⟩ := Bool.and_eq_true_iff.mp hm
        have htag : (t == "ref") = true := by
          have := (matchedRef_elim notes _ hmm).1
          simpa using this
        have hnoref : containsRefL cs = false := href htag
        subst hb
        rw [show inlineCountE notes true (.mk t a tx cs tl) = 1 from by
          simp [inlineCountE, hmm]]
        simp only [textDescE, if_true]
        rw [List.filter_cons, if_pos (by simpa using hmm)]
        rw [filterMatched_textDescL_nil notes (true || t == "text") cs hnoref]
        rfl
      · have hstep : inlineCountE notes b (.mk t a tx cs tl)
            = inlineCountL notes (b || t == "text") cs := by
          simp only [inlineCountE]
          rw [if_neg hm]
        rw [hstep]
        cases b with
        | false =>
            simp only [textDescE, Bool.false_eq_true, if_false]
            exact c1_countL notes (false || t == "text") cs hL
        | true =>
            have hmf : matchedRef notes (.mk t a tx cs tl) = false := by
              cases hv : matchedRef notes (.mk t a tx cs tl) with
              | false => rfl
              | true => exact absurd (by simp [hv]) hm
            simp only [textDescE, if_true]
            rw [List.filter_cons, if_neg (by simp [hmf])]
            exact c1_countL notes (true || t == "text") cs hL
theorem c1_countL (notes : NoteTable) :
    ∀ (b : Bool) (cs : List Elem), noNestedRefL cs = true →
      inlineCountL notes b cs
        = ((textDescL b cs).filter (fun x => matchedRef notes x)).length
  | _, [], _ => rfl
  | b, c :: cs, h => by
      have h2 : noNestedRefE c = true ∧ noNestedRefL cs = true := by
        simpa only [noNestedRefL, Bool.and_eq_true_iff] using h
      simp only [inlineCountL, textDescL, List.filter_append, List.length_append]
      rw [c1_countE notes b c h2.1, c1_countL notes b cs h2.2]
end

mutual
theorem cleanE_after_rewrite (notes : NoteTable) (htf : tableRefFree notes = true) :
    ∀ (b : Bool) (e : Elem), noNestedRefE e = true →
      (textDescE b (rewriteE notes b e)).filter (fun x => matchedRef notes x) = []
  | b, .mk t a tx cs tl, h => by
      obtain ⟨href, hL⟩ := noNestedRefE_parts t a tx cs tl h
      by_cases hm : (b && matchedRef notes (.mk t a tx cs tl)) = true
      · obtain ⟨hb, hmm⟩ := Bool.and_eq_true_iff.mp hm
        have hrw : rewriteE notes b (.mk t a tx cs tl)
            = replaceRef notes (.mk t a tx cs tl) := by
          simp only [rewriteE]
          rw [if_pos hm]
        rw [hrw]
        obtain ⟨n, k, hlk, htag, -, hch, -, -⟩ :=
          replaceRef_fields notes (.mk t a tx cs tl) hmm
        have hmf : matchedRef notes (replaceRef notes (.mk t a tx cs tl)) = false := by
          apply matchedRef_false_of_tag
          rw [htag]
          rfl
        have hnref : containsRefL (replaceRef notes (.mk t a tx cs tl)).children
            = false := by
          rw [hch]
          exact tableRefFree_lookup notes htf k n hlk
        rw [textDescE_unfold]
        cases hb2 : b with
        | false => rw [hb2] at hb; simp at hb
        | true =>
            simp only [if_true]
            rw [List.filter_cons, if_neg (by simp [hmf])]
            exact filterMatched_textDescL_nil notes _ _ hnref
      · have hrw : rewriteE notes b (.mk t a tx cs tl)
            = .mk t a tx (rewriteL notes (b || t == "text") cs) tl := by
          simp only [rewriteE]
          rw [if_neg hm]
        rw [hrw, textDescE_unfold]
        have hrest := cleanL_after_rewrite notes htf (b || t == "text") cs hL
        cases b with
        | false => simpa using hrest
        | true =>
            have hmf : matchedRef notes (.mk t a tx cs tl) = false := by
              cases hv : matchedRef notes (.mk t a tx cs tl) with
              | false => rfl
              | true => exact absurd (by simp [hv]) hm
            have hmf2 : matchedRef notes
                (.mk t a tx (rewriteL notes true cs) tl) = false := by
              rw [matchedRef_congr notes (.mk t a tx (rewriteL notes true cs) tl)
                (.mk t a tx cs tl) rfl rfl]
              exact hmf
            simp only [if_true]
            rw [List.filter_cons, if_neg (by simp [hmf2])]
            simpa using hrest
theorem cleanL_after_rewrite (notes : NoteTable) (htf : tableRefFree notes = true) :
    ∀ (b : Bool) (cs : List Elem), noNestedRefL cs = true →
      (textDescL b (rewriteL notes b cs)).filter (fun x => matchedRef notes x) = []
  | _, [], _ => rfl
  | b, c :: cs, h => by
      have h2 : noNestedRefE c = true ∧ noNestedRefL cs = true := by
        simpa only [noNestedRefL, Bool.and_eq_true_iff] using h
      show ((textDescL b (rewriteE notes b c :: rewriteL notes b cs)).filter
        (fun x => matchedRef notes x)) = []
      simp only [textDescL, List.filter_append]
      rw [cleanE_after_rewrite notes htf b c h2.1,
        cleanL_after_rewrite notes htf b cs h2.2]
      rfl
end

/-! ### Preservation of unmatched refs (count form) -/

mutual
theorem c5_countE (notes : NoteTable) (htf : tableRefFree notes = true) :
    ∀ (b : Bool) (e : Elem), noNestedRefE e = true →
      unmatchedCountE notes (rewriteE notes b e) = unmatchedCountE notes e
  | b, .mk t a tx cs tl, h => by
      obtain ⟨href, hL⟩ := noNestedRefE_parts t a tx cs tl h
      by_cases hm : (b && matchedRef notes (.mk t a tx cs tl)) = true
      · obtain ⟨hb, hmm⟩ := Bool.and_eq_true_iff.mp hm
        have htag : (t == "ref") = true := by
          have := (matchedRef_elim notes _ hmm).1
          simpa using this
        have hnoref : containsRefL cs = false := href htag
        have hrw : rewriteE notes b (.mk t a tx cs tl)
            = replaceRef notes (.mk t a tx cs tl) := by
          simp only [rewriteE]
          rw [if_pos hm]
        rw [hrw]
        obtain ⟨n, k, hlk, htag2, -, hch, -, -⟩ :=
          replaceRef_fields notes (.mk t a tx cs tl) hmm
        rw [unmatchedCountE_unfold, unmatchedCountE_unfold]
        have hu1 : isUnmatchedRef notes (replaceRef notes (.mk t a tx cs tl)) = false := by
          unfold isUnmatchedRef
          rw [htag2]
          rfl
        have hu2 : isUnmatchedRef notes (.mk t a tx cs tl) = false := by
          unfold isUnmatchedRef
          rw [hmm]
          simp
        rw [hu1, hu2, hch]
        simp only [Elem.children_mk]
        rw [unmatchedCountL_zero_of_no_ref notes n.children
          (tableRefFree_lookup notes htf k n hlk),
          unmatchedCountL_zero_of_no_ref notes cs hnoref]
      · have hrw : rewriteE notes b (.mk t a tx cs tl)
            = .mk t a tx (rewriteL notes (b || t == "text") cs) tl := by
          simp only [rewriteE]
          rw [if_neg hm]
        rw [hrw, unmatchedCountE_unfold, unmatchedCountE_unfold]
        rw [isUnmatchedRef_congr notes
          (.mk t a tx (rewriteL notes (b || t == "text") cs) tl)
          (.mk t a tx cs tl) rfl rfl]
        simp only [Elem.children_mk]
        rw [c5_countL notes htf (b || t == "text") cs hL]
theorem c5_countL (notes : NoteTable) (htf : tableRefFree notes = true) :
    ∀ (b : Bool) (cs : List Elem), noNestedRefL cs = true →
      unmatchedCountL notes (rewriteL notes b cs) = unmatchedCountL notes cs
  | _, [], _ => rfl
  | b, c :: cs, h => by
      have h2 : noNestedRefE c = true ∧ noNestedRefL cs = true := by
        simpa only [noNestedRefL, Bool.and_eq_true_iff] using h
      show unmatchedCountL notes (rewriteE notes b c :: rewriteL notes b cs)
        = unmatchedCountL notes (c :: cs)
      simp only [unmatchedCountL]
      rw [c5_countE notes htf b c h2.1, c5_countL notes htf b cs h2.2]
end

/-! ### Collector key facts -/

theorem get_notes_keys_nonempty (root : Elem) :
    ∀ p ∈ get_notes_from_back root, p.1 ≠ "" := by
  intro p hp
  have h := fold_keys_nonempty (collectedPairs root) [] (by simp) p hp
  intro hcon
  exact h (by rw [hcon]; rfl)

theorem lookup_empty_none (root : Elem) :
    lookupTable (get_notes_from_back root) "" = none := by
  unfold lookupTable
  rw [List.find?_eq_none.mpr ?_]
  · rfl
  · intro p hp hbe
    exact get_notes_keys_nonempty root p hp (by simpa using hbe)

/-! ### Replicate computation lemmas -/

theorem collectedPairsL_replicate (N : Nat) (x : Elem) (hx : collectedPairs x = []) :
    collectedPairsL (List.replicate N x) = [] := by
  induction N with
  | zero => rfl
  | succ n ih => simp [List.replicate_succ, collectedPairsL, hx, ih]

theorem inlineCountL_replicate (notes : NoteTable) (b : Bool) (N : Nat) (x : Elem) :
    inlineCountL notes b (List.replicate N x) = N * inlineCountE notes b x := by
  induction N with
  | zero => simp [List.replicate, inlineCountL]
  | succ n ih =>
      simp only [List.replicate_succ, inlineCountL, ih]
      ring

/-! ### Claim theorems -/

/-- C2: the inline note built from a source note is a new note element with
place="inline" whose content equals the mixed content of the source exactly:
same leading text, the child elements in document order with attributes,
nested markup and trailing texts preserved (children are equal as trees),
and no tail of its own; this covers the text-only case children = []. -/
theorem c2_create_inline_note_content (n : Elem) :
    (create_inline_note n).tag = "note" ∧
    (create_inline_note n).attrs = [("place", "inline")] ∧
    textOf (create_inline_note n).txt = textOf n.txt ∧
    (create_inline_note n).children = n.children ∧
    (create_inline_note n).tail = none := by
  refine ⟨create_inline_note_tag n, create_inline_note_attrs n, ?_,
    create_inline_note_children n, create_inline_note_tail n⟩
  rw [create_inline_note_txt]
  cases h : n.txt with
  | none => simp [truthy]
  | some s =>
      by_cases hs : s.isEmpty = true
      · have h0 : s = "" := (String.isEmpty_iff s).mp hs
        subst h0
        rfl
      · simp [truthy, hs]

/-- C1: for a document without a ref nested inside another ref and a table
whose note contents hold no refs, inline_references returns exactly the
number of refs under the text element whose target is a fragment pointer
with an identifier of the table, and after the pass no such matched ref
remains in the tree (each was replaced). -/
theorem c1_inline_count_exact (root : Elem) (notes : NoteTable)
    (h1 : noNestedRefE root = true) (h2 : tableRefFree notes = true) :
    (inline_references root notes).2 = specMatchedCount notes root ∧
    specMatchedCount notes (inline_references root notes).1 = 0 := by
  constructor
  · show inlineCountE notes false root = specMatchedCount notes root
    rw [c1_countE notes false root h1]
    rfl
  · show specMatchedCount notes (rewriteE notes false root) = 0
    unfold specMatchedCount
    rw [cleanE_after_rewrite notes h2 false root h1]
    rfl

theorem c1_witness :
    (inline_references w1doc (get_notes_from_back w1doc)).2
        = specMatchedCount (get_notes_from_back w1doc) w1doc ∧
    specMatchedCount (get_notes_from_back w1doc)
        (inline_references w1doc (get_notes_from_back w1doc)).1 = 0 :=
  c1_inline_count_exact w1doc (get_notes_from_back w1doc) rfl rfl

/-- C5 counterexample: in c5doc the single endnote content carries an
external reference; one unmatched ref before the pass, two after it (the
inline copy duplicates the reference), so the count of preserved references
is not conserved and the claim as stated fails. -/
theorem c5_counterexample :
    unmatchedCountE (get_notes_from_back c5doc) c5doc = 1 ∧
    unmatchedCountE (get_notes_from_back c5doc)
      (inline_references c5doc (get_notes_from_back c5doc)).1 = 2 :=
  ⟨rfl, rfl⟩

/-- C5 (amended): a non-matching ref is itself left in place and unchanged
by the rewrite provided references are not nested inside one another — an
unmatched ref nested inside a replaced ref is detached and deleted with it,
so the conjunct requires the ref to contain no refs, and the count
conjunct requires no nested refs anywhere; and the count of unmatched refs
is conserved provided additionally that the table note contents hold no
refs — otherwise inlining deep-copies note content and duplicates the
references inside it into every inline copy. -/
theorem c5_amended_preservation (root : Elem) (notes : NoteTable)
    (h1 : noNestedRefE root = true) (h2 : tableRefFree notes = true) :
    unmatchedCountE notes (inline_references root notes).1
        = unmatchedCountE notes root ∧
    (∀ (b : Bool) (r : Elem), isUnmatchedRef notes r = true →
      containsRefL r.children = false → rewriteE notes b r = r) := by
  constructor
  · exact c5_countE notes h2 false root h1
  · intro b r hu hcr
    have hm : matchedRef notes r = false := by
      unfold isUnmatchedRef at hu
      obtain ⟨-, h⟩ := Bool.and_eq_true_iff.mp hu
      simpa using h
    cases r with
    | mk t a tx cs tl =>
        simp only [rewriteE]
        rw [if_neg (by simp [hm] :
          ¬(b && matchedRef notes (.mk t a tx cs tl)) = true)]
        rw [rewriteL_id_of_no_ref notes (b || t == "text") cs (by simpa using hcr)]

theorem c5_witness :
    unmatchedCountE (get_notes_from_back w1doc)
        (inline_references w1doc (get_notes_from_back w1doc)).1
      = unmatchedCountE (get_notes_from_back w1doc) w1doc :=
  (c5_amended_preservation w1doc (get_notes_from_back w1doc) rfl rfl).1

/-- C6: replacing a matched ref is local: in the rewritten parent the ref
position holds exactly the replacement element, every sibling is rewritten
independently at its own position (lengths and order preserved), the
replacement is an inline note, and it carries the tail of the ref when that
tail is truthy. -/
theorem c6_replace_in_place (notes : NoteTable) (p r : Elem) (cs1 cs2 : List Elem)
    (hp : matchedRef notes p = false)
    (hr : matchedRef notes r = true)
    (hc : p.children = cs1 ++ r :: cs2) :
    (rewriteE notes true p).children
        = cs1.map (rewriteE notes true) ++
            replaceRef notes r :: cs2.map (rewriteE notes true) ∧
    rewriteE notes true r = replaceRef notes r ∧
    (replaceRef notes r).tag = "note" ∧
    (replaceRef notes r).attrs = [("place", "inline")] ∧
    (truthy r.tail = true → (replaceRef notes r).tail = r.tail) := by
  have hrr : rewriteE notes true r = replaceRef notes r := by
    rw [rewriteE_unfold, if_pos (by simp [hr])]
  obtain ⟨n, k, -, htag, hattrs, -, -, htail⟩ := replaceRef_fields notes r hr
  refine ⟨?_, hrr, htag, hattrs, fun ht => by rw [htail, if_pos ht]⟩
  rw [rewriteE_unfold, if_neg (by simp [hp])]
  simp only [Bool.true_or, Elem.children_mk]
  rw [hc, rewriteL_eq, List.map_append, List.map_cons, hrr]

theorem c6_witness :
    (rewriteE [("n1", noteN1)] true (.mk "body" [] none [extRef, refN1] none)).children
      = [extRef].map (rewriteE [("n1", noteN1)] true) ++
          replaceRef [("n1", noteN1)] refN1 ::
            ([] : List Elem).map (rewriteE [("n1", noteN1)] true) :=
  (c6_replace_in_place [("n1", noteN1)] (.mk "body" [] none [extRef, refN1] none)
    refN1 [extRef] [] rfl rfl rfl).1

/-- C10: every key of the collected table is a non-empty identifier, so a
ref whose target is the bare fragment "#" never matches the table, is never
replaced, and keeps its tag, attributes, text and tail through the pass. -/
theorem c10_hash_ref_preserved (root : Elem) (e : Elem) (b : Bool)
    (h1 : e.tag = "ref") (h2 : e.attr "target" = some "#") :
    (∀ p ∈ get_notes_from_back root, p.1 ≠ "") ∧
    matchedRef (get_notes_from_back root) e = false ∧
    (rewriteE (get_notes_from_back root) b e).tag = e.tag ∧
    (rewriteE (get_notes_from_back root) b e).attrs = e.attrs ∧
    (rewriteE (get_notes_from_back root) b e).txt = e.txt ∧
    (rewriteE (get_notes_from_back root) b e).tail = e.tail := by
  have hm : matchedRef (get_notes_from_back root) e = false := by
    unfold matchedRef
    rw [h2]
    simp only []
    rw [show ("#" : String).drop 1 = "" from rfl, lookup_empty_none root]
    simp
  have hrw : rewriteE (get_notes_from_back root) b e
      = .mk e.tag e.attrs e.txt
          (rewriteL (get_notes_from_back root) (b || e.tag == "text") e.children)
          e.tail := by
    rw [rewriteE_unfold, if_neg (by simp [hm])]
  refine ⟨get_notes_keys_nonempty root, hm, ?_, ?_, ?_, ?_⟩ <;> rw [hrw] <;> rfl

theorem c10_witness : matchedRef (get_notes_from_back w1doc) hashRef = false :=
  (c10_hash_ref_preserved w1doc hashRef true rfl rfl).2.1

/-- C9: when two or more collected notes carry the same non-empty
identifier, the dictionary resolves that identifier to the note of the last
collected pair with that identifier (last in document order of the
collection walk); stated for documents without nested back elements, where
the collection order is the document order of the selected divisions. -/
theorem c9_duplicate_last_wins (root : Elem) (id : String)
    (h1 : noNestedBackE root = true)
    (h2 : id ≠ "")
    (h3 : 2 ≤ ((collectedPairs root).filter (fun p => p.1 == id)).length) :
    lookupTable (get_notes_from_back root) id
      = ((collectedPairs root).filter (fun p => p.1 == id)).getLast?.map
          (fun q => q.2) := by
  unfold get_notes_from_back
  have hk : ¬id.isEmpty = true := by
    simpa [String.isEmpty_iff] using h2
  rw [fold_lookup id hk (collectedPairs root) []]
  cases hfl : ((collectedPairs root).filter (fun p => p.1 == id)).getLast? with
  | some q => simp [hfl]
  | none => simp [hfl, lookupTable]

theorem c9_witness :
    lookupTable (get_notes_from_back dupDoc) "d"
      = ((collectedPairs dupDoc).filter (fun p => p.1 == "d")).getLast?.map
          (fun q => q.2) :=
  c9_duplicate_last_wins dupDoc "d" rfl (by decide) (by decide)

/-- C3 counterexample: a document whose notes division holds only a note
without identifier is returned unchanged by the per-document pipeline, and
its back still holds a notes division, refuting the claim in the case of a
notes division without identified notes. -/
theorem c3_counterexample :
    process_file_tree c3doc = c3doc ∧ noBackNotesDivE c3doc = false :=
  ⟨rfl, rfl⟩

/-- C3 (amended): when at least one identified note was collected (the
NoteTable is non-empty), after the pipeline no notes-division element
remains directly inside any back container; with an empty NoteTable the
document is returned unchanged and notes divisions may remain. -/
theorem c3_amended_cleanup (root : Elem)
    (h : get_notes_from_back root ≠ []) :
    noBackNotesDivE (process_file_tree root) = true := by
  unfold process_file_tree
  rw [if_neg (by simpa [List.isEmpty_iff] using h)]
  exact remove_notes_div_clean _

theorem c3_witness : noBackNotesDivE (process_file_tree w1doc) = true :=
  c3_amended_cleanup w1doc (List.cons_ne_nil _ _)

/-- C4 counterexample: an empty back container without any notes division
is left in the tree by remove_notes_div, so a back container can exist
after Cleanup with neither element children nor non-whitespace text,
refuting the stated equivalence. -/
theorem c4_counterexample :
    remove_notes_div c4doc = c4doc ∧
    existsEmptyBackE (remove_notes_div c4doc) = true :=
  ⟨rfl, rfl⟩

/-- C4 (amended): a back container is removed by Cleanup exactly when the
emptiness check that follows the removal of its last own notes division
succeeds: no non-whitespace leading text and a child list that is
non-empty, ends with a notes division, and consists only of notes
divisions and back children that themselves vanish this way.  The check
runs only right after removing one of the container's own divisions and is
never repeated, so a back emptied later (by a nested back removing itself)
survives empty, as does a back that never held a notes division.  A
container holding only notes divisions is removed entirely; a surviving
container keeps its position, its leading text, and its remaining children
cleaned recursively in order. -/
theorem c4_amended_back_removal (p b : Elem) (cs1 cs2 : List Elem)
    (hb : b.tag = "back")
    (hc : p.children = cs1 ++ b :: cs2) :
    (cleanupE p).children
      = cleanupChildren (p.tag == "back") cs1
          ++ (if vanishE b then [] else [cleanupE b])
          ++ cleanupChildren (p.tag == "back") cs2 ∧
    (vanishE b = true ↔
      (hasNonWsText b = false ∧ b.children ≠ [] ∧
        (∀ l, b.children.getLast? = some l → isNotesDiv l = true) ∧
        ∀ c ∈ b.children, isNotesDiv c = true ∨ (c.tag = "back" ∧ vanishE c = true))) ∧
    ((∀ c ∈ b.children, isNotesDiv c = true) → b.children ≠ [] →
      hasNonWsText b = false → vanishE b = true) ∧
    (cleanupE b).txt = b.txt ∧
    (cleanupE b).children = b.children.flatMap (cleanupOne true) := by
  have hdb : isNotesDiv b = false := by
    unfold isNotesDiv
    rw [hb]
    rfl
  have hvan : vanishE b = true ↔
      (hasNonWsText b = false ∧ b.children ≠ [] ∧
        (∀ l, b.children.getLast? = some l → isNotesDiv l = true) ∧
        ∀ c ∈ b.children, isNotesDiv c = true ∨ (c.tag = "back" ∧ vanishE c = true)) := by
    cases b with
    | mk tb ab txb csb tlb =>
        simp only [vanishE, Elem.children_mk]
        rw [Bool.and_eq_true_iff, vanishKids_iff csb]
        constructor
        · rintro ⟨hh1, hh2, hh3, hh4⟩
          exact ⟨by simpa using hh1, hh2, hh3, hh4⟩
        · rintro ⟨hh1, hh2, hh3, hh4⟩
          exact ⟨by simpa using hh1, hh2, hh3, hh4⟩
  refine ⟨?_, hvan, ?_, ?_, ?_⟩
  · cases p with
    | mk t a tx cs tl =>
        rw [cleanupE_unfold]
        simp only [Elem.children_mk, Elem.tag_mk]
        rw [show cs = cs1 ++ b :: cs2 from by simpa using hc,
          cleanupChildren_append]
        have hcons : cleanupChildren (t == "back") (b :: cs2)
            = (if vanishE b then [] else [cleanupE b])
                ++ cleanupChildren (t == "back") cs2 := by
          simp only [cleanupChildren,
            show ((t == "back") && isNotesDiv b) = false from by simp [hdb],
            Bool.false_eq_true, if_false]
          rw [show (b.tag == "back" && vanishE b) = vanishE b from by
            simp [hb]]
          by_cases hv : vanishE b = true
          · simp [hv]
          · simp [hv]
        rw [hcons, List.append_assoc]
  · intro hall hne htxt
    refine hvan.mpr ⟨htxt, hne, ?_, fun c hcm => Or.inl (hall c hcm)⟩
    intro l hl
    exact hall l (List.mem_of_mem_getLast? hl)
  · cases b with
    | mk tb ab txb csb tlb => rw [cleanupE_unfold]; rfl
  · cases b with
    | mk tb ab txb csb tlb =>
        have htb : tb = "back" := by simpa using hb
        subst htb
        rw [cleanupE_unfold]
        simp only [Elem.children_mk]
        rw [show (("back" : String) == "back") = true from rfl,
          cleanupChildren_eq]

theorem c4_witness :
    (cleanupE (.mk "text" [] none [outerBack] none)).children
      = cleanupChildren ((Elem.mk "text" [] none [outerBack] none).tag == "back") []
          ++ (if vanishE outerBack then [] else [cleanupE outerBack])
          ++ cleanupChildren ((Elem.mk "text" [] none [outerBack] none).tag == "back") [] :=
  (c4_amended_back_removal (.mk "text" [] none [outerBack] none)
    outerBack [] [] rfl rfl).1

/-- C7: in a document whose single endnote (text tx, children kids) is
referenced from N distinct body locations, inline_references produces
exactly N copies, each the inline note built from the endnote (full original
mixed content: its children equal kids), while the endnote under the notes
division is returned unchanged; the copies are separate values of the
output list, so they share nothing.  The hypotheses pin the document to the
entity model: the note content holds no refs (so the source subtree is
untouched and no extra scan targets arise), no identified notes and no back
containers hide inside the note content. -/
theorem c7_independent_copies (N : Nat) (tx : Option String) (kids : List Elem)
    (h1 : containsRefL kids = false)
    (h2 : noteEntriesL kids = [])
    (h3 : containsBackL kids = false) :
    get_notes_from_back (mkDoc7 N tx kids) = [("n1", mkNote7 tx kids)] ∧
    inline_references (mkDoc7 N tx kids) (get_notes_from_back (mkDoc7 N tx kids))
      = (.mk "TEI" [] none
          [.mk "text" [] none
            [.mk "body" [] none
              (List.replicate N
                (withTail (create_inline_note (mkNote7 tx kids)) none)) none,
             .mk "back" [] none
               [.mk "div" [("type", "notes")] none [mkNote7 tx kids] none]
               none] none] none,
         N) ∧
    (withTail (create_inline_note (mkNote7 tx kids)) none).children = kids := by
  have hrep : collectedPairsL (List.replicate N mkRef7) = [] :=
    collectedPairsL_replicate N mkRef7 rfl
  have hkids : collectedPairsL kids = [] := collectedPairsL_nil_of_no_back kids h3
  have htab : get_notes_from_back (mkDoc7 N tx kids) = [("n1", mkNote7 tx kids)] := by
    unfold get_notes_from_back
    have hcol : collectedPairs (mkDoc7 N tx kids) = [("n1", mkNote7 tx kids)] := by
      simp [mkDoc7, collectedPairs, collectedPairsL, divNotes, noteEntries,
        noteEntriesL, mkNote7, isNotesDiv, Elem.attr, List.find?,
        hrep, h2, hkids]
    rw [hcol]
    rfl
  have hcref : containsRefE
      (Elem.mk "back" [] none
        [Elem.mk "div" [("type", "notes")] none [mkNote7 tx kids] none] none)
      = false := by
    simp [containsRefE, containsRefL, mkNote7, h1]
  have hback : rewriteE [("n1", mkNote7 tx kids)] true
      (Elem.mk "back" [] none
        [Elem.mk "div" [("type", "notes")] none [mkNote7 tx kids] none] none)
      = Elem.mk "back" [] none
          [Elem.mk "div" [("type", "notes")] none [mkNote7 tx kids] none] none :=
    rewriteE_id_of_no_ref _ true _ hcref
  have htree : rewriteE [("n1", mkNote7 tx kids)] false (mkDoc7 N tx kids)
      = .mk "TEI" [] none
          [.mk "text" [] none
            [.mk "body" [] none
              (List.replicate N
                (withTail (create_inline_note (mkNote7 tx kids)) none)) none,
             .mk "back" [] none
               [.mk "div" [("type", "notes")] none [mkNote7 tx kids] none]
               none] none] none := by
    have hsplit : rewriteE [("n1", mkNote7 tx kids)] false (mkDoc7 N tx kids)
        = .mk "TEI" [] none
            [.mk "text" [] none
              [.mk "body" [] none
                (rewriteL [("n1", mkNote7 tx kids)] (true || ("body" == "text"))
                  (List.replicate N mkRef7)) none,
               rewriteE [("n1", mkNote7 tx kids)] true
                 (Elem.mk "back" [] none
                   [Elem.mk "div" [("type", "notes")] none [mkNote7 tx kids] none]
                   none)] none] none := by rfl
    rw [hsplit, hback, rewriteL_eq, List.map_replicate,
      show rewriteE [("n1", mkNote7 tx kids)] (true || ("body" == "text")) mkRef7
        = withTail (create_inline_note (mkNote7 tx kids)) none from rfl]
  have hcount : inlineCountE [("n1", mkNote7 tx kids)] false (mkDoc7 N tx kids)
      = N := by
    have hsplit : inlineCountE [("n1", mkNote7 tx kids)] false (mkDoc7 N tx kids)
        = inlineCountL [("n1", mkNote7 tx kids)] (true || ("body" == "text"))
            (List.replicate N mkRef7) +
          inlineCountE [("n1", mkNote7 tx kids)] true
            (Elem.mk "back" [] none
              [Elem.mk "div" [("type", "notes")] none [mkNote7 tx kids] none]
              none) := by rfl
    rw [hsplit, inlineCountL_replicate,
      inlineCountE_zero_of_no_ref _ true _ hcref,
      show inlineCountE [("n1", mkNote7 tx kids)] (true || ("body" == "text")) mkRef7
        = 1 from rfl]
    omega
  refine ⟨htab, ?_, ?_⟩
  · unfold inline_references
    rw [htab, htree, hcount]
  · rw [withTail_children, create_inline_note_children]
    rfl

theorem c7_witness :
    inline_references
        (mkDoc7 3 (some "Hello ") [Elem.mk "emph" [] (some "world") [] (some "!")])
        (get_notes_from_back
          (mkDoc7 3 (some "Hello ") [Elem.mk "emph" [] (some "world") [] (some "!")]))
      = (.mk "TEI" [] none
          [.mk "text" [] none
            [.mk "body" [] none
              (List.replicate 3
                (withTail
                  (create_inline_note
                    (mkNote7 (some "Hello ")
                      [Elem.mk "emph" [] (some "world") [] (some "!")])) none)) none,
             .mk "back" [] none
               [.mk "div" [("type", "notes")] none
                 [mkNote7 (some "Hello ")
                   [Elem.mk "emph" [] (some "world") [] (some "!")]] none]
               none] none] none,
         3) :=
  (c7_independent_copies 3 (some "Hello ")
    [Elem.mk "emph" [] (some "world") [] (some "!")] rfl rfl rfl).2.1

/-- C8: the driver exits with status 1 before processing anything when the
argument count is wrong, when the input folder check fails, or when no xml
file is found; otherwise it processes every file, counts successes and
failures (a per-document failure is turned into a False result by the
try/except of process_file and processing continues), and exits 0 whatever
the number of failures. -/
theorem c8_driver_exit_behavior (argc : Nat) (ex dir : Bool)
    (files : List String) (ok : String → Bool) :
    (argc ≠ 3 → main_model argc ex dir files ok = (1, 0, 0)) ∧
    ((ex && dir) = false → main_model argc ex dir files ok = (1, 0, 0)) ∧
    (files = [] → main_model argc ex dir files ok = (1, 0, 0)) ∧
    (argc = 3 → (ex && dir) = true → files ≠ [] →
      main_model argc ex dir files ok
        = (0, (files.filter ok).length,
           (files.filter (fun f => !(ok f))).length) ∧
      (files.filter ok).length + (files.filter (fun f => !(ok f))).length
        = files.length) := by
  refine ⟨fun h => ?_, fun h => ?_, fun h => ?_, fun h1 h2 h3 => ⟨?_, ?_⟩⟩
  · unfold main_model
    rw [if_pos h]
  · unfold main_model
    by_cases ha : argc ≠ 3
    · rw [if_pos ha]
    · rw [if_neg ha, if_pos (by rw [h]; rfl)]
  · unfold main_model
    by_cases ha : argc ≠ 3
    · rw [if_pos ha]
    · rw [if_neg ha]
      by_cases hb : (!(ex && dir)) = true
      · rw [if_pos hb]
      · rw [if_neg hb, if_pos (by rw [h]; rfl)]
  · unfold main_model
    rw [if_neg (by omega), if_neg (by simp [h2]),
      if_neg (by simpa [List.isEmpty_iff] using h3)]
  · exact (List.length_eq_length_filter_add ok).symm

theorem c8_witness :
    main_model 3 true true ["a", "b"] (fun s => s == "a")
      = (0, (["a", "b"].filter (fun s => s == "a")).length,
         (["a", "b"].filter (fun s => !(s == "a"))).length) :=
  ((c8_driver_exit_behavior 3 true true ["a", "b"] (fun s => s == "a")).2.2.2
    rfl rfl (List.cons_ne_nil _ _)).1
